import Mathlib

/-!
Verification of the `bohrenMKIV.py` backup pipeline.

The development shallowly embeds the program's five functions —
`findDrive`, `collectMatchingFiles`, `cliMethod`, `installPy7zr`,
`py7zrMethod`, `main` — together with the parts of the Python standard
library they rely on (`os.path.join`, `os.path.normpath`,
`os.path.relpath`, `os.path.basename`, `pathlib.PurePath.suffix`,
`str.lower`, `os.walk`).  Paths are modelled with POSIX separators
(the claims about path algebra are separator-generic), lower-casing is
modelled on ASCII (the extension allowlist is ASCII), and the inputs
reaching `os.path.relpath` are absolute paths (the program passes
`Path.home()` and walk-produced paths), where `os.path.abspath`
coincides with `os.path.normpath`.

Effectful code (subprocess runs, imports, pip bootstrap, the archive
writer) is embedded over explicit "world" records giving the outcome of
each external action; each function returns its Python value (with
`Except` for exceptions escaping it) together with the ordered list of
external actions it performed.
-/

namespace Bohren

/-! ## Character-level path primitives -/

/-- Python `s.split("/")` on the character list of a string: a separator
opens a new (initially empty) piece, any other character is prepended to
the first piece of the split of the rest (which is never empty). -/
def splitSlash : List Char → List (List Char)
  | [] => [[]]
  | c :: rest =>
    if c = '/' then [] :: splitSlash rest
    else (c :: (splitSlash rest).headI) :: (splitSlash rest).tail

/-- Python `"/".join(parts)` on character lists. -/
def joinSlash : List (List Char) → List Char
  | [] => []
  | [c] => c
  | c :: rest => c ++ '/' :: joinSlash rest

/-- `os.path.join(a, b)` (POSIX form): an absolute second argument wins;
otherwise the parts are glued, inserting a slash when `a` is nonempty and
does not already end with one. -/
def pyJoin (a b : String) : String :=
  if b.data.head? = some '/' then b
  else if a.data = [] then ⟨a.data ++ b.data⟩
  else if a.data.getLast? = some '/' then ⟨a.data ++ b.data⟩
  else ⟨a.data ++ '/' :: b.data⟩

/-- The `initial_slashes` count of `posixpath.normpath`: 1 for one leading
slash (or three or more), 2 for exactly two. -/
def initialSlashes (cs : List Char) : Nat :=
  if cs.head? = some '/' then
    if cs.take 3 = ['/', '/', '/'] then 1
    else if cs.take 2 = ['/', '/'] then 2
    else 1
  else 0

/-- One step of the component loop of `posixpath.normpath`: skip empty and
`"."` components, append ordinary components (and `".."` when it cannot be
cancelled), otherwise pop the previous component. -/
def npStep (k : Nat) (acc : List (List Char)) (comp : List Char) : List (List Char) :=
  if comp = [] ∨ comp = ['.'] then acc
  else if comp ≠ ['.', '.'] ∨ (k = 0 ∧ acc = []) ∨ (acc ≠ [] ∧ acc.getLast? = some ['.', '.']) then
    acc ++ [comp]
  else if acc ≠ [] then acc.dropLast
  else acc

/-- `posixpath.normpath`. -/
def pyNormpath (path : String) : String :=
  if path.data = [] then "." else
  let k := initialSlashes path.data
  let comps := splitSlash path.data
  let newComps := comps.foldl (npStep k) []
  let res := List.replicate k '/' ++ joinSlash newComps
  if res = [] then "." else ⟨res⟩

/-- Length of the longest common prefix of two component lists
(`len(os.path.commonprefix([a, b]))` for lists). -/
def commonPrefixLen : List (List Char) → List (List Char) → Nat
  | a :: as0, b :: bs0 => if a = b then commonPrefixLen as0 bs0 + 1 else 0
  | _, _ => 0

/-- `posixpath.relpath(path, start)` for absolute arguments (on which
`os.path.abspath` is `os.path.normpath`): split both normalized paths into
nonempty components, drop the common prefix, prepend one `".."` per
remaining component of `start`, and rejoin. -/
def pyRelpath (path start : String) : String :=
  let startList := (splitSlash (pyNormpath start).data).filter (· ≠ [])
  let pathList := (splitSlash (pyNormpath path).data).filter (· ≠ [])
  let i := commonPrefixLen startList pathList
  let relList := List.replicate (startList.length - i) (['.', '.'] : List Char) ++ pathList.drop i
  if relList = [] then "." else ⟨joinSlash relList⟩

/-- The segment of a character list after its last slash
(`posixpath.basename` is `p[p.rfind('/')+1:]`). -/
def afterLastSlash (cs : List Char) : List Char :=
  (cs.reverse.takeWhile (· ≠ '/')).reverse

/-- `posixpath.basename`. -/
def pyBasename (p : String) : String :=
  ⟨afterLastSlash p.data⟩

/-- Split a character list at its last dot: `lastSplitDot cs = some (pre, post)`
when `cs = pre ++ '.' :: post` with `post` dot-free, and `none` when `cs`
has no dot. -/
def lastSplitDot : List Char → Option (List Char × List Char)
  | [] => none
  | c :: rest =>
    match lastSplitDot rest with
    | some (pre, post) => some (c :: pre, post)
    | none => if c = '.' then some ([], rest) else none

/-- `pathlib.PurePath(name).suffix`: the part of the final path component
from its last dot on, empty when the last dot is leading (a dotfile such as
`".txt"`), trailing, or absent. -/
def pySuffix (name : String) : String :=
  match lastSplitDot (afterLastSlash name.data) with
  | some (pre, post) => if pre ≠ [] ∧ post ≠ [] then ⟨'.' :: post⟩ else ""
  | none => ""

/-- Python `str.lower`, modelled on ASCII (the allowlist is ASCII). -/
def pyLower (s : String) : String :=
  ⟨s.data.map Char.toLower⟩

/-! ## The filesystem model and `os.walk` -/

/-- A directory listing, in `os.scandir` order.  Each node carries the rest
of its listing; a `dir` node also carries its own listing and an `isMount`
flag marking it as the root of another filesystem mounted beneath the walk
root; a `symlinkDir` carries the listing its target resolves to (which
`os.walk` with `followlinks=False` reports as a directory name but never
descends into).  A `symlinkFile` is any non-directory symlink: `os.walk`
lists it among the filenames. -/
inductive FS where
  | nil : FS
  | file (name : String) (rest : FS) : FS
  | symlinkFile (name : String) (rest : FS) : FS
  | symlinkDir (name : String) (target : FS) (rest : FS) : FS
  | dir (name : String) (isMount : Bool) (children : FS) (rest : FS) : FS
  deriving DecidableEq

/-- The filenames (non-directories) of a listing, in order: regular files
and file symlinks. -/
def fileNamesOf : FS → List String
  | .nil => []
  | .file n rest => n :: fileNamesOf rest
  | .symlinkFile n rest => n :: fileNamesOf rest
  | .symlinkDir _ _ rest => fileNamesOf rest
  | .dir _ _ _ rest => fileNamesOf rest

/-- The recursion of `os.walk(…)` (top-down, `followlinks=False`) below a
directory whose path is `dirpath` and whose listing is given: every
subdirectory that is not a symlink is entered — the `isMount` flag is not
consulted — and yields its `(dirpath, filenames)` pair followed by its own
subtree.  Directory symlinks are never entered, whatever their target. -/
def walkFrom (dirpath : String) : FS → List (String × List String)
  | .nil => []
  | .file _ rest => walkFrom dirpath rest
  | .symlinkFile _ rest => walkFrom dirpath rest
  | .symlinkDir _ _ rest => walkFrom dirpath rest
  | .dir n _ children rest =>
    ((pyJoin dirpath n, fileNamesOf children) :: walkFrom (pyJoin dirpath n) children)
      ++ walkFrom dirpath rest

/-- `os.walk(source)` projected to the `(dirpath, filenames)` components the
program uses (it discards the directory-name lists). -/
def osWalk (source : String) (tree : FS) : List (String × List String) :=
  (source, fileNamesOf tree) :: walkFrom source tree

/-- `collectMatchingFiles(source, extensions)` (the generator, as the list
it yields): for every file of the walk whose lower-cased suffix is in
`extensions`, the pair of its absolute path and its path relative to
`source`. -/
def collectMatchingFiles (source : String) (tree : FS) (extensions : List String) :
    List (String × String) :=
  (osWalk source tree).flatMap fun pr =>
    pr.2.filterMap fun file =>
      if pyLower (pySuffix file) ∈ extensions then
        some (pyJoin pr.1 file, pyRelpath (pyJoin pr.1 file) source)
      else none

/-! ## Well-formed names and trees

Real directory entries are nonempty, contain no separator, and are distinct
from the special entries `.` and `..`; the path-algebra theorems assume
this of the modelled tree. -/

/-- A well-formed path component / directory-entry name. -/
def CleanComp (c : List Char) : Prop :=
  c ≠ [] ∧ '/' ∉ c ∧ c ≠ ['.'] ∧ c ≠ ['.', '.']

instance (c : List Char) : Decidable (CleanComp c) := by
  unfold CleanComp; infer_instance

/-- `CleanComp` on a name given as a string, as a decidable Boolean. -/
def cleanNameB (s : String) : Bool := decide (CleanComp s.data)

/-- Every entry name throughout a listing is well-formed (targets of
directory symlinks are exempt: the walk never reads them). -/
def cleanFS : FS → Bool
  | .nil => true
  | .file n rest => cleanNameB n && cleanFS rest
  | .symlinkFile n rest => cleanNameB n && cleanFS rest
  | .symlinkDir n _ rest => cleanNameB n && cleanFS rest
  | .dir n _ children rest => cleanNameB n && cleanFS children && cleanFS rest

/-- The character list of the absolute path with components `cs` (so
`absOf [] = "/"`). -/
def absOf (cs : List (List Char)) : List Char := '/' :: joinSlash cs

/-! ## Lemmas about the path primitives -/

theorem str_data (l : List Char) : (⟨l⟩ : String).data = l := rfl

theorem str_eta (s : String) : (⟨s.data⟩ : String) = s := rfl

theorem str_eq_of_data {a b : String} (h : a.data = b.data) : a = b := by
  cases a; cases b; exact congrArg String.mk h

theorem splitSlash_no_slash {c : List Char} (h : '/' ∉ c) : splitSlash c = [c] := by
  induction c with
  | nil => rfl
  | cons a t ih =>
    have ha : a ≠ '/' := fun e => h (e ▸ List.mem_cons_self a t)
    have ht : '/' ∉ t := fun e => h (List.mem_cons_of_mem a e)
    simp [splitSlash, ha, ih ht]

theorem splitSlash_append {c : List Char} (h : '/' ∉ c) (ys : List Char) :
    splitSlash (c ++ '/' :: ys) = c :: splitSlash ys := by
  induction c with
  | nil => simp [splitSlash]
  | cons a t ih =>
    have ha : a ≠ '/' := fun e => h (e ▸ List.mem_cons_self a t)
    have ht : '/' ∉ t := fun e => h (List.mem_cons_of_mem a e)
    simp [splitSlash, ha, ih ht]

theorem splitSlash_ne_nil (l : List Char) : splitSlash l ≠ [] := by
  cases l with
  | nil => simp [splitSlash]
  | cons c rest => by_cases hc : c = '/' <;> simp [splitSlash, hc]

theorem joinSlash_cons (c : List Char) {rest : List (List Char)} (h : rest ≠ []) :
    joinSlash (c :: rest) = c ++ '/' :: joinSlash rest := by
  cases rest with
  | nil => exact absurd rfl h
  | cons d ds => rfl

theorem joinSlash_cons_head (c : Char) (h : List Char) (t : List (List Char)) :
    joinSlash ((c :: h) :: t) = c :: joinSlash (h :: t) := by
  cases t with
  | nil => rfl
  | cons a b => simp [joinSlash_cons]

theorem joinSlash_append {cs ys : List (List Char)} (hcs : cs ≠ []) (hys : ys ≠ []) :
    joinSlash (cs ++ ys) = joinSlash cs ++ '/' :: joinSlash ys := by
  induction cs with
  | nil => exact absurd rfl hcs
  | cons c rest ih =>
    cases rest with
    | nil =>
      cases ys with
      | nil => exact absurd rfl hys
      | cons y ys0 => rfl
    | cons d ds =>
      rw [List.cons_append, joinSlash_cons c (by simp),
        joinSlash_cons c (List.cons_ne_nil d ds), ih (List.cons_ne_nil d ds)]
      simp

theorem splitSlash_joinSlash {cs : List (List Char)} (h : cs ≠ [])
    (hc : ∀ c ∈ cs, '/' ∉ c) : splitSlash (joinSlash cs) = cs := by
  induction cs with
  | nil => exact absurd rfl h
  | cons c rest ih =>
    cases rest with
    | nil => exact splitSlash_no_slash (hc c (by simp))
    | cons d ds =>
      rw [joinSlash_cons c (List.cons_ne_nil d ds), splitSlash_append (hc c (by simp)),
        ih (List.cons_ne_nil d ds) (fun x hx => hc x (List.mem_cons_of_mem c hx))]

theorem joinSlash_splitSlash (l : List Char) : joinSlash (splitSlash l) = l := by
  induction l with
  | nil => rfl
  | cons c rest ih =>
    by_cases hc : c = '/'
    · subst hc
      have hne := splitSlash_ne_nil rest
      rw [show splitSlash ('/' :: rest) = [] :: splitSlash rest by simp [splitSlash]]
      rw [joinSlash_cons [] hne, List.nil_append, ih]
    · obtain ⟨p, ps, hps⟩ : ∃ p ps, splitSlash rest = p :: ps := by
        cases h : splitSlash rest with
        | nil => exact absurd h (splitSlash_ne_nil rest)
        | cons p ps => exact ⟨p, ps, rfl⟩
      simp only [splitSlash, if_neg hc, hps, List.headI, List.tail]
      rw [joinSlash_cons_head, ← hps, ih]

theorem mem_of_getLast?_eq {α : Type} {l : List α} {x : α} (h : l.getLast? = some x) :
    x ∈ l := by
  induction l with
  | nil => simp at h
  | cons a t ih =>
    cases t with
    | nil => simp_all
    | cons b u =>
      rw [List.getLast?_cons_cons] at h
      exact List.mem_cons_of_mem a (ih h)

theorem getLast?_append_right {α : Type} (l₁ : List α) {l₂ : List α} (h : l₂ ≠ []) :
    (l₁ ++ l₂).getLast? = l₂.getLast? := by
  induction l₁ with
  | nil => rfl
  | cons a t ih =>
    cases h2 : t ++ l₂ with
    | nil =>
      rcases List.append_eq_nil.mp h2 with ⟨-, h4⟩
      exact absurd h4 h
    | cons b u =>
      rw [List.cons_append, h2, List.getLast?_cons_cons, ← h2, ih]

theorem joinSlash_parts {cs : List (List Char)} (h : cs ≠ [])
    (hc : ∀ c ∈ cs, CleanComp c) :
    joinSlash cs ≠ [] ∧ (joinSlash cs).getLast? ≠ some '/' := by
  induction cs with
  | nil => exact absurd rfl h
  | cons c rest ih =>
    have hcc := hc c (by simp)
    cases rest with
    | nil =>
      refine ⟨hcc.1, fun hlast => ?_⟩
      exact hcc.2.1 (mem_of_getLast?_eq hlast)
    | cons d ds =>
      have hih := ih (List.cons_ne_nil d ds) (fun x hx => hc x (List.mem_cons_of_mem c hx))
      rw [joinSlash_cons c (List.cons_ne_nil d ds)]
      constructor
      · simp
      · rw [show c ++ '/' :: joinSlash (d :: ds) = (c ++ ['/']) ++ joinSlash (d :: ds) by simp,
          getLast?_append_right _ hih.1]
        exact hih.2

theorem absOf_ne_nil (cs : List (List Char)) : absOf cs ≠ [] := by simp [absOf]

theorem initialSlashes_absOf {cs : List (List Char)} (hc : ∀ c ∈ cs, CleanComp c) :
    initialSlashes (absOf cs) = 1 := by
  cases cs with
  | nil => rfl
  | cons c rest =>
    obtain ⟨ch, ct, rfl⟩ : ∃ ch ct, c = ch :: ct := by
      cases c with
      | nil => exact absurd rfl (hc [] (by simp)).1
      | cons ch ct => exact ⟨ch, ct, rfl⟩
    have hcc : CleanComp (ch :: ct) := hc (ch :: ct) (List.mem_cons_self _ _)
    have hch : ch ≠ '/' := fun e => hcc.2.1 (List.mem_cons.mpr (Or.inl e.symm))
    simp only [absOf, joinSlash_cons_head]
    simp [initialSlashes, List.take, hch]

theorem npStep_clean {k : Nat} {acc : List (List Char)} {c : List Char} (hc : CleanComp c) :
    npStep k acc c = acc ++ [c] := by
  unfold npStep
  rw [if_neg (by push_neg; exact ⟨hc.1, hc.2.2.1⟩), if_pos (Or.inl hc.2.2.2)]

theorem foldl_npStep_clean {k : Nat} {cs : List (List Char)} (hc : ∀ c ∈ cs, CleanComp c) :
    ∀ acc, cs.foldl (npStep k) acc = acc ++ cs := by
  induction cs with
  | nil => simp
  | cons c rest ih =>
    intro acc
    rw [List.foldl_cons, npStep_clean (hc c (by simp)),
      ih (fun x hx => hc x (List.mem_cons_of_mem c hx))]
    simp

theorem splitSlash_absOf {c : List Char} {rest : List (List Char)}
    (hc : ∀ x ∈ c :: rest, CleanComp x) :
    splitSlash (absOf (c :: rest)) = [] :: c :: rest := by
  show splitSlash ('/' :: joinSlash (c :: rest)) = _
  rw [show splitSlash ('/' :: joinSlash (c :: rest)) =
      [] :: splitSlash (joinSlash (c :: rest)) by simp [splitSlash]]
  rw [splitSlash_joinSlash (List.cons_ne_nil c rest) (fun x hx => (hc x hx).2.1)]

theorem pyNormpath_absOf {cs : List (List Char)} (hc : ∀ c ∈ cs, CleanComp c) :
    pyNormpath ⟨absOf cs⟩ = ⟨absOf cs⟩ := by
  cases cs with
  | nil => decide
  | cons c rest =>
    simp only [pyNormpath, str_data]
    rw [if_neg (absOf_ne_nil (c :: rest)), initialSlashes_absOf hc, splitSlash_absOf hc,
      List.foldl_cons]
    rw [show npStep 1 [] [] = [] from rfl, foldl_npStep_clean hc []]
    rw [List.nil_append, if_neg (by simp)]
    rfl

theorem parts_pyNormpath_absOf {cs : List (List Char)} (hc : ∀ c ∈ cs, CleanComp c) :
    (splitSlash (pyNormpath ⟨absOf cs⟩).data).filter (· ≠ []) = cs := by
  rw [pyNormpath_absOf hc, str_data]
  cases cs with
  | nil => decide
  | cons c rest =>
    rw [splitSlash_absOf hc, List.filter_cons_of_neg (by simp)]
    exact List.filter_eq_self.mpr fun a ha => by
      simpa using (hc a ha).1

theorem commonPrefixLen_self_append (cs ys : List (List Char)) :
    commonPrefixLen cs (cs ++ ys) = cs.length := by
  induction cs with
  | nil => cases ys <;> rfl
  | cons c rest ih => simp [commonPrefixLen, ih]

theorem pyRelpath_absOf {cs es : List (List Char)} (hcs : ∀ c ∈ cs, CleanComp c)
    (hes : ∀ c ∈ es, CleanComp c) (hne : es ≠ []) :
    pyRelpath ⟨absOf (cs ++ es)⟩ ⟨absOf cs⟩ = ⟨joinSlash es⟩ := by
  have hboth : ∀ c ∈ cs ++ es, CleanComp c := fun c hcm => by
    rcases List.mem_append.mp hcm with h | h
    · exact hcs c h
    · exact hes c h
  simp only [pyRelpath]
  rw [parts_pyNormpath_absOf hcs, parts_pyNormpath_absOf hboth,
    commonPrefixLen_self_append, Nat.sub_self, List.replicate_zero, List.nil_append,
    List.drop_left, if_neg hne]

theorem joinSlash_head?_ne_slash {es : List (List Char)} (hes : ∀ c ∈ es, CleanComp c)
    (hne : es ≠ []) : (joinSlash es).head? ≠ some '/' := by
  cases es with
  | nil => exact absurd rfl hne
  | cons e es0 =>
    obtain ⟨eh, et, rfl⟩ : ∃ eh et, e = eh :: et := by
      cases e with
      | nil => exact absurd rfl (hes [] (by simp)).1
      | cons eh et => exact ⟨eh, et, rfl⟩
    have hee : CleanComp (eh :: et) := hes (eh :: et) (List.mem_cons_self _ _)
    have hh : eh ≠ '/' := fun hc => hee.2.1 (List.mem_cons.mpr (Or.inl hc.symm))
    rw [joinSlash_cons_head]
    simpa using hh

theorem pyJoin_absOf {cs es : List (List Char)} (hcs : ∀ c ∈ cs, CleanComp c)
    (hes : ∀ c ∈ es, CleanComp c) (hne : es ≠ []) :
    pyJoin ⟨absOf cs⟩ ⟨joinSlash es⟩ = ⟨absOf (cs ++ es)⟩ := by
  unfold pyJoin
  rw [str_data, str_data, if_neg (joinSlash_head?_ne_slash hes hne),
    if_neg (absOf_ne_nil cs)]
  cases cs with
  | nil =>
    rw [if_pos (show (absOf []).getLast? = some '/' from rfl)]
    rfl
  | cons c rest =>
    have hjp := joinSlash_parts (List.cons_ne_nil c rest) hcs
    rw [if_neg ?hlast]
    case hlast =>
      show ('/' :: joinSlash (c :: rest)).getLast? ≠ some '/'
      rw [show ('/' :: joinSlash (c :: rest)) = ['/'] ++ joinSlash (c :: rest) from rfl,
        getLast?_append_right _ hjp.1]
      exact hjp.2
    apply str_eq_of_data
    rw [str_data, str_data]
    show absOf (c :: rest) ++ '/' :: joinSlash es = absOf ((c :: rest) ++ es)
    simp only [absOf, List.cons_append, List.cons.injEq, true_and]
    exact (joinSlash_append (List.cons_ne_nil c rest) hne).symm

theorem pyJoin_absOf_name {cs : List (List Char)} (hcs : ∀ c ∈ cs, CleanComp c)
    {n : String} (hn : CleanComp n.data) :
    pyJoin ⟨absOf cs⟩ n = ⟨absOf (cs ++ [n.data])⟩ := by
  have h := @pyJoin_absOf cs [n.data] hcs
    (fun c hcm => by simp at hcm; subst hcm; exact hn) (by simp)
  rw [show (⟨joinSlash [n.data]⟩ : String) = n from str_eta n] at h
  exact h

/-! ## Lemmas about the walk -/

theorem cleanName_of_b {s : String} (h : cleanNameB s = true) : CleanComp s.data :=
  of_decide_eq_true h

theorem fileNamesOf_clean {t : FS} (h : cleanFS t = true) :
    ∀ f ∈ fileNamesOf t, CleanComp f.data := by
  induction t with
  | nil => simp [fileNamesOf]
  | file n rest ih =>
    simp only [cleanFS, Bool.and_eq_true] at h
    intro f hf
    rcases List.mem_cons.mp hf with rfl | hf2
    · exact cleanName_of_b h.1
    · exact ih h.2 f hf2
  | symlinkFile n rest ih =>
    simp only [cleanFS, Bool.and_eq_true] at h
    intro f hf
    rcases List.mem_cons.mp hf with rfl | hf2
    · exact cleanName_of_b h.1
    · exact ih h.2 f hf2
  | symlinkDir n tgt rest ihT ihR =>
    simp only [cleanFS, Bool.and_eq_true] at h
    exact fun f hf => ihR h.2 f hf
  | dir n m children rest ihC ihR =>
    simp only [cleanFS, Bool.and_eq_true] at h
    exact fun f hf => ihR h.2 f hf

theorem walkFrom_files_clean {t : FS} :
    ∀ {dp : String}, cleanFS t = true → ∀ pr ∈ walkFrom dp t, ∀ f ∈ pr.2, CleanComp f.data := by
  induction t with
  | nil => intro dp _ pr hpr; simp [walkFrom] at hpr
  | file n rest ih =>
    intro dp ht pr hpr
    simp only [cleanFS, Bool.and_eq_true] at ht
    exact ih ht.2 pr hpr
  | symlinkFile n rest ih =>
    intro dp ht pr hpr
    simp only [cleanFS, Bool.and_eq_true] at ht
    exact ih ht.2 pr hpr
  | symlinkDir n tgt rest ihT ihR =>
    intro dp ht pr hpr
    simp only [cleanFS, Bool.and_eq_true] at ht
    exact ihR ht.2 pr hpr
  | dir n m children rest ihC ihR =>
    intro dp ht pr hpr
    simp only [cleanFS, Bool.and_eq_true] at ht
    obtain ⟨⟨hn, hch⟩, hrest⟩ := ht
    simp only [walkFrom] at hpr
    rcases List.mem_append.mp hpr with hmem | hmem
    · rcases List.mem_cons.mp hmem with rfl | hmem2
      · exact fun f hf => fileNamesOf_clean hch f hf
      · exact ihC hch pr hmem2
    · exact ihR hrest pr hmem

theorem walked_files_clean {src : String} {t : FS} (ht : cleanFS t = true)
    {d : String} {fl : List String} (h : (d, fl) ∈ osWalk src t) :
    ∀ f ∈ fl, CleanComp f.data := by
  rcases List.mem_cons.mp h with he | hw
  · have h2 : fl = fileNamesOf t := congrArg Prod.snd he
    rw [h2]
    exact fileNamesOf_clean ht
  · exact walkFrom_files_clean ht (d, fl) hw

theorem walkFrom_shape {t : FS} :
    ∀ {cs : List (List Char)}, (∀ c ∈ cs, CleanComp c) → cleanFS t = true →
    ∀ pr ∈ walkFrom ⟨absOf cs⟩ t,
      ∃ ds sub, ds ≠ [] ∧ (∀ c ∈ cs ++ ds, CleanComp c) ∧ cleanFS sub = true ∧
        pr = (⟨absOf (cs ++ ds)⟩, fileNamesOf sub) := by
  induction t with
  | nil => intro cs _ _ pr hpr; simp [walkFrom] at hpr
  | file n rest ih =>
    intro cs hcs ht pr hpr
    simp only [cleanFS, Bool.and_eq_true] at ht
    exact ih hcs ht.2 pr hpr
  | symlinkFile n rest ih =>
    intro cs hcs ht pr hpr
    simp only [cleanFS, Bool.and_eq_true] at ht
    exact ih hcs ht.2 pr hpr
  | symlinkDir n tgt rest ihT ihR =>
    intro cs hcs ht pr hpr
    simp only [cleanFS, Bool.and_eq_true] at ht
    exact ihR hcs ht.2 pr hpr
  | dir n m children rest ihC ihR =>
    intro cs hcs ht pr hpr
    simp only [cleanFS, Bool.and_eq_true] at ht
    obtain ⟨⟨hn, hch⟩, hrest⟩ := ht
    have hnc : CleanComp n.data := cleanName_of_b hn
    have hcs2 : ∀ c ∈ cs ++ [n.data], CleanComp c := by
      intro c hcm
      rcases List.mem_append.mp hcm with h | h
      · exact hcs c h
      · simp at h; subst h; exact hnc
    have hjoin : pyJoin ⟨absOf cs⟩ n = ⟨absOf (cs ++ [n.data])⟩ :=
      pyJoin_absOf_name hcs hnc
    simp only [walkFrom] at hpr
    rcases List.mem_append.mp hpr with hmem | hmem
    · rcases List.mem_cons.mp hmem with heq | hmem2
      · refine ⟨[n.data], children, by simp, hcs2, hch, ?_⟩
        rw [heq, hjoin]
      · rw [hjoin] at hmem2
        obtain ⟨ds, sub, hne, hcl, hsub, heq⟩ := ihC hcs2 hch pr hmem2
        refine ⟨n.data :: ds, sub, by simp, ?_, hsub, ?_⟩
        · intro c hcm
          apply hcl
          rw [show cs ++ [n.data] ++ ds = cs ++ n.data :: ds by simp]
          exact hcm
        · rw [heq, List.append_assoc]
          rfl
    · exact ihR hcs hrest pr hmem

theorem osWalk_shape {t : FS} {cs : List (List Char)} (hcs : ∀ c ∈ cs, CleanComp c)
    (ht : cleanFS t = true) {pr : String × List String}
    (hpr : pr ∈ osWalk ⟨absOf cs⟩ t) :
    ∃ ds sub, (∀ c ∈ cs ++ ds, CleanComp c) ∧ cleanFS sub = true ∧
      pr = (⟨absOf (cs ++ ds)⟩, fileNamesOf sub) := by
  rcases List.mem_cons.mp hpr with rfl | h
  · exact ⟨[], t, by simpa using hcs, ht, by simp⟩
  · obtain ⟨ds, sub, _, h2, h3, h4⟩ := walkFrom_shape hcs ht pr h
    exact ⟨ds, sub, h2, h3, h4⟩

/-! ## Membership in the collected list -/

theorem mem_collect_iff {src : String} {t : FS} {exts : List String} {p : String × String} :
    p ∈ collectMatchingFiles src t exts ↔
      ∃ d fl, (d, fl) ∈ osWalk src t ∧ ∃ f ∈ fl, pyLower (pySuffix f) ∈ exts ∧
        p = (pyJoin d f, pyRelpath (pyJoin d f) src) := by
  constructor
  · intro hp
    obtain ⟨pr, hpr, hmem⟩ := List.mem_flatMap.mp hp
    obtain ⟨f, hf, hsome⟩ := List.mem_filterMap.mp hmem
    by_cases hc : pyLower (pySuffix f) ∈ exts
    · rw [if_pos hc] at hsome
      exact ⟨pr.1, pr.2, by simpa using hpr, f, hf, hc, (Option.some.inj hsome).symm⟩
    · rw [if_neg hc] at hsome; cases hsome
  · rintro ⟨d, fl, hw, f, hf, hc, rfl⟩
    exact List.mem_flatMap.mpr ⟨(d, fl), hw, List.mem_filterMap.mpr ⟨f, hf, by rw [if_pos hc]⟩⟩

/-! ## Lemmas about suffix, lower-casing and basename -/

theorem takeWhile_append_stop {p : Char → Bool} {u : List Char} (hu : ∀ x ∈ u, p x = true)
    {a : Char} (ha : p a = false) (w : List Char) :
    (u ++ a :: w).takeWhile p = u := by
  induction u with
  | nil => simp [List.takeWhile_cons, ha]
  | cons b t ih =>
    have hb := hu b (List.mem_cons_self _ _)
    simp [List.takeWhile_cons, hb, ih (fun x hx => hu x (List.mem_cons_of_mem b hx))]

theorem takeWhile_all {p : Char → Bool} {u : List Char} (hu : ∀ x ∈ u, p x = true) :
    u.takeWhile p = u := by
  induction u with
  | nil => rfl
  | cons b t ih =>
    have hb := hu b (List.mem_cons_self _ _)
    simp [List.takeWhile_cons, hb, ih (fun x hx => hu x (List.mem_cons_of_mem b hx))]

theorem afterLastSlash_no_slash {l : List Char} (h : '/' ∉ l) : afterLastSlash l = l := by
  unfold afterLastSlash
  rw [takeWhile_all, List.reverse_reverse]
  intro x hx
  have hx2 : x ∈ l := List.mem_reverse.mp hx
  have : x ≠ '/' := fun e => h (e ▸ hx2)
  simpa using this

theorem afterLastSlash_append {xs f : List Char} (hf : '/' ∉ f) :
    afterLastSlash (xs ++ '/' :: f) = f := by
  unfold afterLastSlash
  rw [List.reverse_append,
    show ('/' :: f).reverse = f.reverse ++ ['/'] from List.reverse_cons '/' f,
    List.append_assoc,
    show (['/'] ++ xs.reverse : List Char) = '/' :: xs.reverse from rfl]
  rw [takeWhile_append_stop ?hall (by simp) xs.reverse]
  case hall =>
    intro x hx
    have hx2 : x ∈ f := List.mem_reverse.mp hx
    have : x ≠ '/' := fun e => hf (e ▸ hx2)
    simpa using this
  exact List.reverse_reverse f

theorem lastSplitDot_none {l : List Char} (h : '.' ∉ l) : lastSplitDot l = none := by
  induction l with
  | nil => rfl
  | cons c rest ih =>
    have hc : c ≠ '.' := fun e => h (List.mem_cons.mpr (Or.inl e.symm))
    have ht : '.' ∉ rest := fun e => h (List.mem_cons_of_mem c e)
    simp [lastSplitDot, ih ht, hc]

theorem lastSplitDot_append {pre post : List Char} (h : '.' ∉ post) :
    lastSplitDot (pre ++ '.' :: post) = some (pre, post) := by
  induction pre with
  | nil => simp [lastSplitDot, lastSplitDot_none h]
  | cons a t ih => simp [lastSplitDot, ih]

theorem pySuffix_of_split {name : String} {x post : List Char}
    (hdata : name.data = x ++ '.' :: post) (hslash : '/' ∉ name.data)
    (hdot : '.' ∉ post) (hx : x ≠ []) (hpost : post ≠ []) :
    pySuffix name = ⟨'.' :: post⟩ := by
  unfold pySuffix
  rw [afterLastSlash_no_slash hslash, hdata, lastSplitDot_append hdot]
  simp [hx, hpost]

theorem pySuffix_dotfile {name : String} {rest : List Char}
    (hdata : name.data = '.' :: rest) (hdot : '.' ∉ rest) (hslash : '/' ∉ name.data) :
    pySuffix name = "" := by
  unfold pySuffix
  rw [afterLastSlash_no_slash hslash, hdata,
    show ('.' :: rest : List Char) = [] ++ '.' :: rest from rfl, lastSplitDot_append hdot]
  simp

theorem eq_append_of_getLast? {α : Type} {l : List α} {x : α} (h : l.getLast? = some x) :
    ∃ q, l = q ++ [x] := by
  induction l with
  | nil => simp at h
  | cons a t ih =>
    cases t with
    | nil =>
      simp at h
      exact ⟨[], by simp [h]⟩
    | cons b u =>
      rw [List.getLast?_cons_cons] at h
      obtain ⟨q, hq⟩ := ih h
      exact ⟨a :: q, by simp [hq]⟩

theorem pyBasename_pyJoin {d f : String} (hf : CleanComp f.data) :
    pyBasename (pyJoin d f) = f := by
  have hnoslash : '/' ∉ f.data := hf.2.1
  have hhead : ¬f.data.head? = some '/' := by
    cases hc : f.data with
    | nil => simp
    | cons fh ft =>
      simp only [List.head?_cons, Option.some.injEq]
      intro e
      apply hnoslash
      rw [hc]
      exact List.mem_cons.mpr (Or.inl e.symm)
  unfold pyJoin
  rw [if_neg hhead]
  by_cases hempty : d.data = []
  · rw [if_pos hempty]
    unfold pyBasename
    rw [str_data, hempty, List.nil_append, afterLastSlash_no_slash hnoslash]
  · rw [if_neg hempty]
    by_cases hlast : d.data.getLast? = some '/'
    · rw [if_pos hlast]
      obtain ⟨q, hq⟩ := eq_append_of_getLast? hlast
      unfold pyBasename
      rw [str_data, hq, List.append_assoc,
        show (['/'] ++ f.data : List Char) = '/' :: f.data from rfl,
        afterLastSlash_append hnoslash]
    · rw [if_neg hlast]
      unfold pyBasename
      rw [str_data, afterLastSlash_append hnoslash]

/-- Exclusion: a walked filename whose lower-cased suffix is not allowlisted
contributes no pair to the collected list. -/
theorem collect_excludes {src : String} {t : FS} {exts : List String}
    (ht : cleanFS t = true) {d f : String} (hf : CleanComp f.data)
    (hno : pyLower (pySuffix f) ∉ exts) :
    ∀ r, (pyJoin d f, r) ∉ collectMatchingFiles src t exts := by
  intro r hmem
  obtain ⟨d2, fl2, hw, f2, hf2, hc, heq⟩ := mem_collect_iff.mp hmem
  have hjoins : pyJoin d f = pyJoin d2 f2 := congrArg Prod.fst heq
  have hf2c := walked_files_clean ht hw f2 hf2
  have hff : f = f2 := by
    rw [← @pyBasename_pyJoin d f hf, ← @pyBasename_pyJoin d2 f2 hf2c, hjoins]
  exact hno (hff ▸ hc)

/-! ## Claim C1: extension matching -/

/-- C1: every pair yielded by `collectMatchingFiles` has an absolute path
whose basename's lower-cased suffix is allowlisted; every walked file whose
lower-cased suffix is allowlisted is yielded; a walked file with an empty or
unlisted suffix is never yielded; and matching is case-insensitive — a
walked file named `stem ++ v` where the extension `v` (a dot followed by a
nonempty dot-free tail) lower-cases into the allowlist is yielded. -/
theorem collect_matches_allowlist (src : String) (tree : FS) (exts : List String)
    (htree : cleanFS tree = true) :
    (∀ p ∈ collectMatchingFiles src tree exts,
      pyLower (pySuffix (pyBasename p.1)) ∈ exts)
    ∧ (∀ d fl, (d, fl) ∈ osWalk src tree → ∀ f ∈ fl, pyLower (pySuffix f) ∈ exts →
        (pyJoin d f, pyRelpath (pyJoin d f) src) ∈ collectMatchingFiles src tree exts)
    ∧ (∀ d fl, (d, fl) ∈ osWalk src tree → ∀ f ∈ fl, pyLower (pySuffix f) ∉ exts →
        ∀ r, (pyJoin d f, r) ∉ collectMatchingFiles src tree exts)
    ∧ (∀ d fl, (d, fl) ∈ osWalk src tree → ∀ stem v : String,
        (⟨stem.data ++ v.data⟩ : String) ∈ fl → stem.data ≠ [] → '.' ∉ stem.data →
        v.data.head? = some '.' → '.' ∉ v.data.tail → v.data.tail ≠ [] →
        pyLower v ∈ exts →
        (pyJoin d ⟨stem.data ++ v.data⟩,
          pyRelpath (pyJoin d ⟨stem.data ++ v.data⟩) src)
            ∈ collectMatchingFiles src tree exts) := by
  refine ⟨?_, ?_, ?_, ?_⟩
  · intro p hp
    obtain ⟨d, fl, hw, f, hf, hc, heq⟩ := mem_collect_iff.mp hp
    have hfc := walked_files_clean htree hw f hf
    have h1 : p.1 = pyJoin d f := by rw [heq]
    rw [h1, pyBasename_pyJoin hfc]
    exact hc
  · intro d fl hw f hf hsuf
    exact mem_collect_iff.mpr ⟨d, fl, hw, f, hf, hsuf, rfl⟩
  · intro d fl hw f hf hno r
    exact collect_excludes htree (walked_files_clean htree hw f hf) hno r
  · intro d fl hw stem v hmem hstem hsdot hvh hvt hvtne hlow
    have hname := walked_files_clean htree hw _ hmem
    obtain ⟨a, t, hvd⟩ : ∃ a t, v.data = a :: t := by
      cases hvd2 : v.data with
      | nil => rw [hvd2] at hvh; cases hvh
      | cons a t => exact ⟨a, t, rfl⟩
    have ha : a = '.' := by rw [hvd] at hvh; simpa using hvh
    subst ha
    have htail : v.data.tail = t := by rw [hvd]; rfl
    rw [htail] at hvt hvtne
    have hnamedata : (⟨stem.data ++ v.data⟩ : String).data = stem.data ++ '.' :: t := by
      rw [str_data, hvd]
    have hsuf : pySuffix ⟨stem.data ++ v.data⟩ = ⟨'.' :: t⟩ :=
      pySuffix_of_split hnamedata (hnamedata ▸ hname.2.1) hvt hstem hvtne
    have hveq : (⟨'.' :: t⟩ : String) = v := by
      apply str_eq_of_data
      rw [str_data, hvd]
    rw [hveq] at hsuf
    exact mem_collect_iff.mpr ⟨d, fl, hw, _, hmem, by rw [hsuf]; exact hlow, rfl⟩

/-- The concrete tree of the C1 witness: an upper-case `.TXT` file and a
`.bak` file at the root. -/
def wTreeA : FS := .file "a.TXT" (.file "b.bak" .nil)

/-- Witness for C1: the upper-case-suffixed file is collected under the
allowlist containing `".txt"`. -/
theorem collect_matches_allowlist_witness :
    (pyJoin "/s" "a.TXT", pyRelpath (pyJoin "/s" "a.TXT") "/s")
      ∈ collectMatchingFiles "/s" wTreeA [".txt"] :=
  (collect_matches_allowlist "/s" wTreeA [".txt"] (by decide)).2.1 "/s"
    ["a.TXT", "b.bak"] (by decide) "a.TXT" (by decide) (by decide)

/-! ## Claim C2: the relative-path round trip -/

/-- C2: joining the source root with the relative path of any yielded pair
reproduces the yielded absolute path, for any clean absolute source root
and clean tree. -/
theorem collect_relpath_roundtrip (src : String) (tree : FS) (exts : List String)
    (cs : List (List Char)) (hcs : ∀ c ∈ cs, CleanComp c) (hsrc : src = ⟨absOf cs⟩)
    (htree : cleanFS tree = true) :
    ∀ p ∈ collectMatchingFiles src tree exts, pyJoin src p.2 = p.1 := by
  subst hsrc
  intro p hp
  obtain ⟨d, fl, hw, f, hf, hc, heq⟩ := mem_collect_iff.mp hp
  obtain ⟨ds, sub, hclean, hsub, hshape⟩ := osWalk_shape hcs htree hw
  have hd : d = ⟨absOf (cs ++ ds)⟩ := congrArg Prod.fst hshape
  have hfc := walked_files_clean htree hw f hf
  have hjoin : pyJoin d f = ⟨absOf (cs ++ ds ++ [f.data])⟩ := by
    rw [hd]
    exact pyJoin_absOf_name hclean hfc
  have hes : ∀ c ∈ ds ++ [f.data], CleanComp c := by
    intro c hcm
    rcases List.mem_append.mp hcm with h | h
    · exact hclean c (List.mem_append.mpr (Or.inr h))
    · simp at h; subst h; exact hfc
  have hrel : pyRelpath (pyJoin d f) ⟨absOf cs⟩ = ⟨joinSlash (ds ++ [f.data])⟩ := by
    rw [hjoin, List.append_assoc]
    exact pyRelpath_absOf hcs hes (by simp)
  have h1 : p.1 = pyJoin d f := by rw [heq]
  have h2 : p.2 = pyRelpath (pyJoin d f) ⟨absOf cs⟩ := by rw [heq]
  rw [h1, h2, hrel, hjoin, pyJoin_absOf hcs hes (by simp), List.append_assoc]

/-- The concrete tree of the C2 witness: one matching file inside a
subdirectory. -/
def wTreeB : FS := .dir "d" false (.file "x.txt" .nil) .nil

/-- Witness for C2 at a concrete source root and tree. -/
theorem collect_relpath_roundtrip_witness :
    pyJoin "/u" "d/x.txt" = "/u/d/x.txt" :=
  collect_relpath_roundtrip "/u" wTreeB [".txt"] [['u']] (by decide) (by decide)
    (by decide) ("/u/d/x.txt", "d/x.txt") (by decide)

/-! ## Claim C4: root confinement, symlinks and mount points -/

/-- Replace the target of every directory symlink with the empty listing;
the walk never reads those targets, so all walk output is unchanged. -/
def pruneLinkTargets : FS → FS
  | .nil => .nil
  | .file n r => .file n (pruneLinkTargets r)
  | .symlinkFile n r => .symlinkFile n (pruneLinkTargets r)
  | .symlinkDir n _ r => .symlinkDir n .nil (pruneLinkTargets r)
  | .dir n m c r => .dir n m (pruneLinkTargets c) (pruneLinkTargets r)

theorem fileNamesOf_prune (t : FS) : fileNamesOf (pruneLinkTargets t) = fileNamesOf t := by
  induction t <;> simp [pruneLinkTargets, fileNamesOf, *]

theorem walkFrom_prune (t : FS) : ∀ dp, walkFrom dp (pruneLinkTargets t) = walkFrom dp t := by
  induction t with
  | nil => intro dp; rfl
  | file n r ih => intro dp; simp [pruneLinkTargets, walkFrom, ih]
  | symlinkFile n r ih => intro dp; simp [pruneLinkTargets, walkFrom, ih]
  | symlinkDir n tgt r ihT ihR => intro dp; simp [pruneLinkTargets, walkFrom, ihR]
  | dir n m c r ihC ihR =>
    intro dp
    simp [pruneLinkTargets, walkFrom, fileNamesOf_prune, ihC, ihR]

theorem absOf_strict_under {cs es : List (List Char)} (hcs : ∀ c ∈ cs, CleanComp c)
    (hes : ∀ c ∈ es, CleanComp c) (hne : es ≠ []) :
    absOf cs <+: absOf (cs ++ es) ∧ absOf (cs ++ es) ≠ absOf cs := by
  have hesp := joinSlash_parts hne hes
  cases cs with
  | nil =>
    constructor
    · exact ⟨joinSlash es, rfl⟩
    · intro h
      simp only [absOf, List.nil_append, List.cons.injEq] at h
      exact hesp.1 h.2
  | cons c rest =>
    have hja := joinSlash_append (List.cons_ne_nil c rest) hne
    constructor
    · refine ⟨'/' :: joinSlash es, ?_⟩
      show absOf (c :: rest) ++ '/' :: joinSlash es = absOf ((c :: rest) ++ es)
      simp only [absOf, List.cons_append, List.cons.injEq, true_and]
      exact hja.symm
    · intro h
      simp only [absOf, List.cons.injEq, true_and] at h
      rw [hja] at h
      have hlen := congrArg List.length h
      simp at hlen

/-- The C4 counterexample tree: beneath the root, `m` is the root of another
filesystem mounted there (`isMount = true`) and holds `a.txt`. -/
def mountTree : FS := .dir "m" true (.file "a.txt" .nil) .nil

/-- C4 counterexample: `collectMatchingFiles` crosses into a filesystem
mounted beneath the root — the file inside the mount is collected, so the
walk is not confined to the root's own filesystem. -/
theorem collect_crosses_mount :
    collectMatchingFiles "/s" mountTree [".txt"] = [("/s/m/a.txt", "m/a.txt")] := by
  decide

/-- C4 (amended): every collected path lies strictly under the root, and
the walk never reads the target of a directory symlink (pruning all such
targets leaves the output unchanged); but the `isMount` flag is ignored, so
the walk does descend into filesystems mounted beneath the root. -/
theorem walk_under_root_no_symlink (src : String) (tree : FS) (exts : List String)
    (cs : List (List Char)) (hcs : ∀ c ∈ cs, CleanComp c) (hsrc : src = ⟨absOf cs⟩)
    (htree : cleanFS tree = true) :
    (∀ p ∈ collectMatchingFiles src tree exts,
      ∃ es, es ≠ [] ∧ (∀ c ∈ es, CleanComp c) ∧ p.1 = ⟨absOf (cs ++ es)⟩ ∧
        src.data <+: p.1.data ∧ p.1 ≠ src)
    ∧ collectMatchingFiles src (pruneLinkTargets tree) exts
        = collectMatchingFiles src tree exts
    ∧ (∀ dp n c r, walkFrom dp (FS.dir n true c r) = walkFrom dp (FS.dir n false c r)) := by
  refine ⟨?_, ?_, fun dp n c r => rfl⟩
  · subst hsrc
    intro p hp
    obtain ⟨d, fl, hw, f, hf, hc, heq⟩ := mem_collect_iff.mp hp
    obtain ⟨ds, sub, hclean, hsub, hshape⟩ := osWalk_shape hcs htree hw
    have hd : d = ⟨absOf (cs ++ ds)⟩ := congrArg Prod.fst hshape
    have hfc := walked_files_clean htree hw f hf
    have hes : ∀ c ∈ ds ++ [f.data], CleanComp c := by
      intro c hcm
      rcases List.mem_append.mp hcm with h | h
      · exact hclean c (List.mem_append.mpr (Or.inr h))
      · simp at h; subst h; exact hfc
    have h1 : p.1 = pyJoin d f := by rw [heq]
    have hp1 : p.1 = ⟨absOf (cs ++ (ds ++ [f.data]))⟩ := by
      rw [h1, hd, pyJoin_absOf_name hclean hfc, List.append_assoc]
    have hstrict := absOf_strict_under hcs hes (by simp)
    refine ⟨ds ++ [f.data], by simp, hes, hp1, ?_, ?_⟩
    · rw [hp1, str_data]
      exact hstrict.1
    · rw [hp1]
      intro he
      exact hstrict.2 (congrArg String.data he)
  · show (osWalk src (pruneLinkTargets tree)).flatMap _ = (osWalk src tree).flatMap _
    rw [show osWalk src (pruneLinkTargets tree) = osWalk src tree from by
      unfold osWalk
      rw [fileNamesOf_prune, walkFrom_prune]]

/-- The concrete tree of the C4 witness: a directory symlink whose target
holds a matching file, next to a regular matching file. -/
def wTreeC : FS := .symlinkDir "link" (.file "t.txt" .nil) (.file "a.txt" .nil)

/-- Witness for C4 (amended): pruning the symlink target changes nothing in
the collected output of the witness tree. -/
theorem walk_under_root_no_symlink_witness :
    collectMatchingFiles "/s" (pruneLinkTargets wTreeC) [".txt"]
      = collectMatchingFiles "/s" wTreeC [".txt"] :=
  (walk_under_root_no_symlink "/s" wTreeC [".txt"] [['s']] (by decide) (by decide)
    (by decide)).2.1

/-! ## Claim C10: dotfiles named exactly like an extension -/

/-- C10: a file whose entire name is a leading dot followed by a nonempty
dot-free tail (for instance a file named exactly `".txt"`) has an empty
computed suffix, so — as long as the allowlist does not contain the empty
string — no pair formed from it is ever collected. -/
theorem dotfile_excluded (name : String) (hd : name.data.head? = some '.')
    (hnd : '.' ∉ name.data.tail) (hne : name.data.tail ≠ []) (hns : '/' ∉ name.data)
    (src : String) (tree : FS) (exts : List String) (hemp : "" ∉ exts)
    (htree : cleanFS tree = true) :
    pySuffix name = "" ∧
      ∀ d r, (pyJoin d name, r) ∉ collectMatchingFiles src tree exts := by
  obtain ⟨t, hvd⟩ : ∃ t, name.data = '.' :: t := by
    cases hc : name.data with
    | nil => rw [hc] at hd; cases hd
    | cons a t =>
      rw [hc] at hd
      simp only [List.head?_cons, Option.some.injEq] at hd
      exact ⟨t, by rw [hd]⟩
  have htl : name.data.tail = t := by rw [hvd]; rfl
  rw [htl] at hnd hne
  have hsuf : pySuffix name = "" := pySuffix_dotfile hvd hnd hns
  have hnc : CleanComp name.data := by
    rw [hvd] at hns ⊢
    refine ⟨by simp, hns, ?_, ?_⟩
    · intro he
      injection he with h1 h2
      exact hne h2
    · intro he
      injection he with h1 h2
      exact hnd (by rw [h2]; exact List.mem_cons_self _ _)
  refine ⟨hsuf, ?_⟩
  intro d r
  refine collect_excludes htree hnc ?_ r
  rw [hsuf]
  exact fun hmem => hemp hmem

/-- The concrete tree of the C10 witness: a single file named `".txt"`. -/
def wTreeD : FS := .file ".txt" .nil

/-- Witness for C10: the dotfile `".txt"` has empty suffix and is not
collected even though `".txt"` is allowlisted. -/
theorem dotfile_excluded_witness :
    pySuffix ".txt" = "" ∧
      (pyJoin "/s" ".txt", ".txt") ∉ collectMatchingFiles "/s" wTreeD [".txt"] :=
  ⟨(dotfile_excluded ".txt" (by decide) (by decide) (by decide) (by decide) "/s" wTreeD
      [".txt"] (by decide) (by decide)).1,
    (dotfile_excluded ".txt" (by decide) (by decide) (by decide) (by decide) "/s" wTreeD
      [".txt"] (by decide) (by decide)).2 "/s" ".txt"⟩

/-! ## Worlds, external events, and the effectful functions

Subprocess runs, imports, the pip bootstrap and the archive writer are
embedded over explicit records fixing the outcome of each external action;
each modelled function returns its Python result — `Except` carrying any
exception that escapes it — together with the ordered list of external
actions it performed. -/

/-- The external actions a run can perform. -/
inductive Event where
  | invoked7z (args : List String)
  | importAttempt
  | installerCalled
  | pipVersionCheck
  | pipInstallModule
  | pipInstallExe
  | ensurepipBootstrap
  | tmpCreated
  | getPipFetch
  | getPipRun
  | tmpRemoved
  | writerOpened (path : String)
  | tier1Called
  | tier2Called
  deriving DecidableEq

/-- A Python exception escaping a modelled function. -/
inductive PyFault where
  | importError
  | uncaught
  deriving DecidableEq

deriving instance DecidableEq for Except

/-- Outcome of `subprocess.run(["7z", ...])`: clean exit, executable absent
(`FileNotFoundError`), nonzero exit (`CalledProcessError`), or any other
fault (e.g. a permission error), which `cliMethod` does not catch. -/
inductive RunOutcome where
  | success
  | fileNotFound
  | nonzeroExit
  | otherFault
  deriving DecidableEq

/-- The backup-archive name `<destination>/<username>Backup.7z` shared by
both tiers. -/
def archiveNameOf (destination username : String) : String :=
  pyJoin destination (username ++ "Backup.7z")

/-- `cliMethod(source, destination, username)`: collect the matching files;
if none, report `False` without running anything.  Otherwise run
`7z a <archive> <absolute paths...> -mx=5`: `True` on exit 0, `False` when
the tool is absent (`FileNotFoundError`) or exits nonzero
(`CalledProcessError`); any other fault of the run escapes uncaught. -/
def cliMethod (sevenZipRun : RunOutcome) (tree : FS) (exts : List String)
    (source destination username : String) : Except PyFault Bool × List Event :=
  let archiveName := archiveNameOf destination username
  let matchingFiles := collectMatchingFiles source tree exts
  if matchingFiles.isEmpty then (.ok false, [])
  else
    let absPaths := matchingFiles.map (·.1)
    let args := ["7z", "a", archiveName] ++ absPaths ++ ["-mx=5"]
    match sevenZipRun with
    | .success => (.ok true, [.invoked7z args])
    | .fileNotFound => (.ok false, [.invoked7z args])
    | .nonzeroExit => (.ok false, [.invoked7z args])
    | .otherFault => (.error .uncaught, [.invoked7z args])

/-- Outcomes of the external actions available to `installPy7zr`. -/
structure InstallWorld where
  pipVersionOk : Bool
  pipInstallModuleOk : Bool
  pipInstallExeOk : Bool
  ensurepipOk : Bool
  tmpCreateOk : Bool
  getPipFetchOk : Bool
  getPipRunOk : Bool
  deriving DecidableEq

/-- `tryPipInstall()`: the module-invocation form then the direct-executable
form of pip, each attempt's exceptions caught, stopping at the first that
exits 0. -/
def tryPipInstall (w : InstallWorld) : Bool × List Event :=
  if w.pipInstallModuleOk then (true, [.pipInstallModule])
  else if w.pipInstallExeOk then (true, [.pipInstallModule, .pipInstallExe])
  else (false, [.pipInstallModule, .pipInstallExe])

/-- `installPy7zr()`: check `pip --version`; on failure bootstrap pip via
`ensurepip`, and failing that fetch `get-pip.py` into a temporary file and
run it — the `finally` block removes the file whenever it was created.
After any success, `tryPipInstall` decides the result.  The function never
imports `py7zr`: its result is exactly the exit status of a pip install
invocation. -/
def installPy7zr (w : InstallWorld) : Bool × List Event :=
  if w.pipVersionOk then
    let r := tryPipInstall w
    (r.1, .pipVersionCheck :: r.2)
  else if w.ensurepipOk then
    let r := tryPipInstall w
    (r.1, .pipVersionCheck :: .ensurepipBootstrap :: r.2)
  else if w.tmpCreateOk then
    if w.getPipFetchOk then
      if w.getPipRunOk then
        let r := tryPipInstall w
        (r.1, [.pipVersionCheck, .ensurepipBootstrap, .tmpCreated, .getPipFetch,
          .getPipRun] ++ r.2 ++ [.tmpRemoved])
      else (false, [.pipVersionCheck, .ensurepipBootstrap, .tmpCreated, .getPipFetch,
        .getPipRun, .tmpRemoved])
    else (false, [.pipVersionCheck, .ensurepipBootstrap, .tmpCreated, .getPipFetch,
      .tmpRemoved])
  else (false, [.pipVersionCheck, .ensurepipBootstrap])

/-- Whether the get-pip temporary file exists after the given sequence of
events (created by `tmpCreated`, destroyed by `tmpRemoved`). -/
def tmpFileLeft (es : List Event) : Bool :=
  es.foldl (fun b e =>
    match e with
    | .tmpCreated => true
    | .tmpRemoved => false
    | _ => b) false

/-- Outcomes of the external actions of `py7zrMethod`: whether `import
py7zr` succeeds before any install and after a reported-successful install
(a pip invocation exiting 0 does not by itself make the library
importable), and whether the archive writing completes. -/
structure LibWorld where
  install : InstallWorld
  importableInitially : Bool
  importableAfterInstall : Bool
  writeOk : Bool
  deriving DecidableEq

/-- The archive-writing part of `py7zrMethod` (after its import/install
preamble, whose events are `es`): collect the matching files; if none,
report `False` without opening the writer; otherwise open
`SevenZipFile(archivePath, mode="w")` and write every candidate under its
relative path — any exception there is caught and reported as `False`. -/
def py7zrArchive (w : LibWorld) (tree : FS) (exts : List String)
    (source destination username : String) (es : List Event) :
    Except PyFault Bool × List Event :=
  let archivePath := archiveNameOf destination username
  let matchingFiles := collectMatchingFiles source tree exts
  if matchingFiles.isEmpty then (.ok false, es)
  else if w.writeOk then (.ok true, es ++ [.writerOpened archivePath])
  else (.ok false, es ++ [.writerOpened archivePath])

/-- `py7zrMethod(source, destination, username)`: `import py7zr`; on
`ImportError`, call `installPy7zr` and report `False` if it fails;
otherwise `import py7zr` again — this second import is NOT inside any
handler, so its `ImportError` escapes the function.  Then archive as in
`py7zrArchive`. -/
def py7zrMethod (w : LibWorld) (tree : FS) (exts : List String)
    (source destination username : String) : Except PyFault Bool × List Event :=
  if w.importableInitially then
    py7zrArchive w tree exts source destination username [.importAttempt]
  else
    let inst := installPy7zr w.install
    if !inst.1 then (.ok false, .importAttempt :: .installerCalled :: inst.2)
    else if !w.importableAfterInstall then
      (.error .importError, .importAttempt :: .installerCalled :: inst.2 ++ [.importAttempt])
    else
      py7zrArchive w tree exts source destination username
        (.importAttempt :: .installerCalled :: inst.2 ++ [.importAttempt])

/-! ## The volume locator -/

/-- The two `platform.system()` regimes the program distinguishes. -/
inductive OSKind where
  | windows
  | posix
  deriving DecidableEq

/-- The machine state `findDrive` reads: the logical-drive bitmask and the
drive-type map on enumerated-drive-letter systems; path existence, directory
listings and mount status on mount-point systems. -/
structure DriveWorld where
  os : OSKind
  bitmask : Nat
  driveTypeW : String → Nat
  pathExists : String → Bool
  listdir : String → List String
  isMount : String → Bool

/-- The drive string `f"{letter}:\\"`. -/
def driveStr (c : Char) : String := ⟨[c, ':', '\\']⟩

/-- The letters `"ABCDEFGHIJKLMNOPQRSTUVWXYZ"` enumerated by the Windows
branch. -/
def windowsLetters : List Char := "ABCDEFGHIJKLMNOPQRSTUVWXYZ".data

/-- The Windows loop of `findDrive`: over the letters in order, test the
low bit of the mask and shift it right once per letter; a set bit whose
drive type is 2 (removable) appends the drive string. -/
def windowsScan (dt : String → Nat) : Nat → List Char → List String
  | _, [] => []
  | bm, c :: rest =>
    (if bm % 2 = 1 ∧ dt (driveStr c) = 2 then [driveStr c] else [])
      ++ windowsScan dt (bm / 2) rest

/-- The fixed ordered mount roots `/media/<u>`, `/run/media/<u>`,
`/Volumes/<u>`. -/
def posixMountPoints (username : String) : List String :=
  ["/media/" ++ username, "/run/media/" ++ username, "/Volumes/" ++ username]

/-- The POSIX branch of `findDrive`: for each mount root that exists, keep
those children that are themselves mount points. -/
def posixScan (w : DriveWorld) (username : String) : List String :=
  (posixMountPoints username).flatMap fun mp =>
    if w.pathExists mp then
      (w.listdir mp).filterMap fun entry =>
        if w.isMount (pyJoin mp entry) then some (pyJoin mp entry) else none
    else []

/-- `findDrive(username)`: build the platform's candidate list and return
its first element, or `None` (with a warning) when it is empty. -/
def findDrive (w : DriveWorld) (username : String) : Option String :=
  let drives : List String :=
    match w.os with
    | .windows => windowsScan w.driveTypeW w.bitmask windowsLetters
    | .posix => posixScan w username
  if drives.isEmpty then none else drives.head?

/-- Modelled from the spec: the first candidate classified as removable in
the fixed enumeration order — bit `i` of the mask against letter `i` of
A–Z on enumerated-drive-letter systems, and the children of the ordered
existing mount roots on mount-point systems. -/
def specFirstRemovable (w : DriveWorld) (username : String) : Option String :=
  match w.os with
  | .windows =>
    ((List.range 26).find? fun i =>
        w.bitmask.testBit i && decide (w.driveTypeW (driveStr (windowsLetters.getD i 'A')) = 2)).map
      fun i => driveStr (windowsLetters.getD i 'A')
  | .posix =>
    ((posixMountPoints username).flatMap fun mp =>
      if w.pathExists mp then (w.listdir mp).map (pyJoin mp) else []).find? w.isMount

/-! ## The orchestrator -/

/-- The whole state `main()` runs against. -/
structure MainWorld where
  drive : DriveWorld
  sevenZipRun : RunOutcome
  lib : LibWorld
  username : String
  home : String
  tree : FS
  exts : List String

/-- The reported outcome of a `main()` run. -/
inductive MainOutcome where
  | noDrive
  | tier1Success
  | tier2Success
  | overallFailure
  deriving DecidableEq

/-- `main()`: resolve the drive; stop if none; run `cliMethod` and stop on
`True`; run `py7zrMethod` and stop on `True`; otherwise report overall
failure.  Exceptions escaping a tier escape `main` as well. -/
def main (w : MainWorld) : Except PyFault MainOutcome × List Event :=
  match findDrive w.drive w.username with
  | none => (.ok .noDrive, [])
  | some externalDrive =>
    let r1 := cliMethod w.sevenZipRun w.tree w.exts w.home externalDrive w.username
    match r1.1 with
    | .error f => (.error f, .tier1Called :: r1.2)
    | .ok true => (.ok .tier1Success, .tier1Called :: r1.2)
    | .ok false =>
      let r2 := py7zrMethod w.lib w.tree w.exts w.home externalDrive w.username
      match r2.1 with
      | .error f => (.error f, .tier1Called :: r1.2 ++ .tier2Called :: r2.2)
      | .ok true => (.ok .tier2Success, .tier1Called :: r1.2 ++ .tier2Called :: r2.2)
      | .ok false => (.ok .overallFailure, .tier1Called :: r1.2 ++ .tier2Called :: r2.2)

/-- The extension allowlist of the source, in source order. -/
def extensions : List String :=
  [".pdf", ".docx", ".txt", ".xls", ".xlsx", ".ppt", ".pptx", ".jpeg", ".jpg",
   ".png", ".py", ".pyw", ".cpp", ".epub", ".zip", ".7z", ".bat", ".wav", ".mp3",
   ".mp4", ".md", ".sh", ".exe", ".webp", ".log", ".yaml", ".hex", ".rb", ".c",
   ".cs", ".html", ".js", ".css", ".lua", ".csv", ".xml", ".rs", ".pyc", ".key",
   ".java", ".jar", ".ini", ".dll", ".enc", ".db", ".sql", ".o", ".out", ".stl",
   ".obj"]

/-! ## Behavioural lemmas about the tiers -/

theorem installPy7zr_events (w : InstallWorld) :
    ∀ e ∈ (installPy7zr w).2, e = Event.pipVersionCheck ∨ e = Event.pipInstallModule ∨
      e = Event.pipInstallExe ∨ e = Event.ensurepipBootstrap ∨ e = Event.tmpCreated ∨
      e = Event.getPipFetch ∨ e = Event.getPipRun ∨ e = Event.tmpRemoved := by
  obtain ⟨a, b, c, d, e0, f, g⟩ := w
  cases a <;> cases b <;> cases c <;> cases d <;> cases e0 <;> cases f <;> cases g <;> decide

theorem cliMethod_fst (sz : RunOutcome) (tree : FS) (exts : List String)
    (s d u : String) :
    (cliMethod sz tree exts s d u).1 =
      if (collectMatchingFiles s tree exts).isEmpty then Except.ok false
      else match sz with
        | .success => .ok true
        | .fileNotFound => .ok false
        | .nonzeroExit => .ok false
        | .otherFault => .error .uncaught := by
  by_cases hemp : (collectMatchingFiles s tree exts).isEmpty <;> cases sz <;>
    simp [cliMethod, hemp]

theorem cliMethod_events (sz : RunOutcome) (tree : FS) (exts : List String)
    (s d u : String) :
    ∀ e ∈ (cliMethod sz tree exts s d u).2, ∃ args, e = Event.invoked7z args := by
  intro e he
  by_cases hemp : (collectMatchingFiles s tree exts).isEmpty
  · simp [cliMethod, hemp] at he
  · cases sz <;> simp [cliMethod, hemp] at he <;> exact ⟨_, he⟩

theorem py7zrArchive_fst (w : LibWorld) (tree : FS) (exts : List String)
    (s d u : String) (es : List Event) :
    (py7zrArchive w tree exts s d u es).1 =
      if (collectMatchingFiles s tree exts).isEmpty then Except.ok false
      else if w.writeOk then .ok true else .ok false := by
  by_cases hemp : (collectMatchingFiles s tree exts).isEmpty <;>
    by_cases hw : w.writeOk = true <;> simp [py7zrArchive, hemp, hw]

theorem py7zrArchive_events (w : LibWorld) (tree : FS) (exts : List String)
    (s d u : String) (es : List Event) :
    ∀ e ∈ (py7zrArchive w tree exts s d u es).2, e ∈ es ∨ ∃ p, e = Event.writerOpened p := by
  intro e he
  by_cases hemp : (collectMatchingFiles s tree exts).isEmpty
  · simp [py7zrArchive, hemp] at he
    exact Or.inl he
  · by_cases hw : w.writeOk = true <;> simp [py7zrArchive, hemp, hw] at he <;>
      rcases he with he | he
    · exact Or.inl he
    · exact Or.inr ⟨_, he⟩
    · exact Or.inl he
    · exact Or.inr ⟨_, he⟩

theorem py7zrMethod_fst (w : LibWorld) (tree : FS) (exts : List String)
    (s d u : String) :
    (py7zrMethod w tree exts s d u).1 =
      if w.importableInitially then
        (if (collectMatchingFiles s tree exts).isEmpty then Except.ok false
          else if w.writeOk then .ok true else .ok false)
      else if !(installPy7zr w.install).1 then .ok false
      else if !w.importableAfterInstall then .error .importError
      else if (collectMatchingFiles s tree exts).isEmpty then .ok false
      else if w.writeOk then .ok true else .ok false := by
  by_cases h1 : w.importableInitially = true
  · simp [py7zrMethod, h1, py7zrArchive_fst]
  · cases h2 : (installPy7zr w.install).1 <;>
      by_cases h3 : w.importableAfterInstall = true <;>
      simp [py7zrMethod, h1, h2, h3, py7zrArchive_fst]

theorem py7zrArchive_snd (w : LibWorld) (tree : FS) (exts : List String)
    (s d u : String) (es : List Event) :
    (py7zrArchive w tree exts s d u es).2 =
      if (collectMatchingFiles s tree exts).isEmpty then es
      else es ++ [Event.writerOpened (archiveNameOf d u)] := by
  by_cases hemp : (collectMatchingFiles s tree exts).isEmpty <;>
    by_cases hw : w.writeOk = true <;> simp [py7zrArchive, hemp, hw]

theorem py7zrMethod_snd (w : LibWorld) (tree : FS) (exts : List String)
    (s d u : String) :
    (py7zrMethod w tree exts s d u).2 =
      if w.importableInitially then
        (py7zrArchive w tree exts s d u [Event.importAttempt]).2
      else if !(installPy7zr w.install).1 then
        Event.importAttempt :: Event.installerCalled :: (installPy7zr w.install).2
      else if !w.importableAfterInstall then
        Event.importAttempt :: Event.installerCalled :: (installPy7zr w.install).2
          ++ [Event.importAttempt]
      else (py7zrArchive w tree exts s d u
        (Event.importAttempt :: Event.installerCalled :: (installPy7zr w.install).2
          ++ [Event.importAttempt])).2 := by
  by_cases h1 : w.importableInitially = true
  · simp [py7zrMethod, h1]
  · cases h2 : (installPy7zr w.install).1 <;>
      by_cases h3 : w.importableAfterInstall = true <;>
      simp [py7zrMethod, h1, h2, h3]

theorem py7zrMethod_events (w : LibWorld) (tree : FS) (exts : List String)
    (s d u : String) :
    ∀ e ∈ (py7zrMethod w tree exts s d u).2,
      e = Event.importAttempt ∨ e = Event.installerCalled ∨
        (∃ p, e = Event.writerOpened p) ∨ e ∈ (installPy7zr w.install).2 := by
  have hes : ∀ x ∈ Event.importAttempt :: Event.installerCalled ::
      ((installPy7zr w.install).2 ++ [Event.importAttempt]),
      x = Event.importAttempt ∨ x = Event.installerCalled ∨
        x ∈ (installPy7zr w.install).2 := by
    intro x hx
    rcases List.mem_cons.mp hx with rfl | hx
    · exact Or.inl rfl
    rcases List.mem_cons.mp hx with rfl | hx
    · exact Or.inr (Or.inl rfl)
    rcases List.mem_append.mp hx with hx | hx
    · exact Or.inr (Or.inr hx)
    · rcases List.mem_singleton.mp hx with rfl
      exact Or.inl rfl
  intro e he
  rw [py7zrMethod_snd] at he
  by_cases h1 : w.importableInitially = true
  · rw [if_pos h1, py7zrArchive_snd] at he
    by_cases hemp : (collectMatchingFiles s tree exts).isEmpty
    · rw [if_pos hemp] at he
      rcases List.mem_singleton.mp he with rfl
      exact Or.inl rfl
    · rw [if_neg hemp] at he
      rcases List.mem_append.mp he with he | he
      · rcases List.mem_singleton.mp he with rfl
        exact Or.inl rfl
      · rcases List.mem_singleton.mp he with rfl
        exact Or.inr (Or.inr (Or.inl ⟨_, rfl⟩))
  · rw [if_neg h1] at he
    by_cases h2 : (installPy7zr w.install).1 = true
    · rw [h2] at he
      simp only [Bool.not_true, Bool.false_eq_true, if_false] at he
      by_cases h3 : w.importableAfterInstall = true
      · rw [h3] at he
        simp only [Bool.not_true, Bool.false_eq_true, if_false, py7zrArchive_snd] at he
        by_cases hemp : (collectMatchingFiles s tree exts).isEmpty
        · rw [if_pos hemp] at he
          rcases hes e he with h | h | h
          · exact Or.inl h
          · exact Or.inr (Or.inl h)
          · exact Or.inr (Or.inr (Or.inr h))
        · rw [if_neg hemp] at he
          rcases List.mem_append.mp he with he | he
          · rcases hes e he with h | h | h
            · exact Or.inl h
            · exact Or.inr (Or.inl h)
            · exact Or.inr (Or.inr (Or.inr h))
          · rcases List.mem_singleton.mp he with rfl
            exact Or.inr (Or.inr (Or.inl ⟨_, rfl⟩))
      · have h3f : w.importableAfterInstall = false := by simpa using h3
        rw [h3f] at he
        simp only [Bool.not_false, if_true] at he
        rcases hes e he with h | h | h
        · exact Or.inl h
        · exact Or.inr (Or.inl h)
        · exact Or.inr (Or.inr (Or.inr h))
    · have h2f : (installPy7zr w.install).1 = false := by simpa using h2
      rw [h2f] at he
      simp only [Bool.not_false, if_true] at he
      rcases List.mem_cons.mp he with rfl | he
      · exact Or.inl rfl
      rcases List.mem_cons.mp he with rfl | he
      · exact Or.inr (Or.inl rfl)
      · exact Or.inr (Or.inr (Or.inr he))

/-! ## Claim C3: installer success versus importability -/

/-- The install world of the C3/C5 counterexamples: `pip --version` and the
module-form install report success, everything else fails. -/
def iwPipOk : InstallWorld := ⟨true, true, false, false, false, false, false⟩

/-- The library world of the C3/C5 counterexamples: the library is
unimportable before the install and — although pip reported success —
still unimportable after it. -/
def lwStale : LibWorld := ⟨iwPipOk, false, false, true⟩

/-- C3 counterexample: `installPy7zr` reports `True`, yet the library is
not importable at that point, and the subsequent re-import inside
`py7zrMethod` raises an `ImportError` that escapes — the installer performs
no import check before reporting success. -/
theorem installer_true_but_import_fails :
    (installPy7zr iwPipOk).1 = true ∧ lwStale.importableAfterInstall = false ∧
      (py7zrMethod lwStale FS.nil [".txt"] "/h" "/d" "u").1
        = Except.error PyFault.importError := by
  decide

/-- C3 (amended): `installPy7zr` returns `True` exactly when pip is
obtainable (directly, via `ensurepip`, or via get-pip) and one of the two
pip-install invocations exits 0; no import is ever attempted inside it, so
a `True` result does not imply that a subsequent import succeeds. -/
theorem installer_reports_pip_exit (w : InstallWorld) :
    ((installPy7zr w).1 = true ↔
      ((w.pipVersionOk || w.ensurepipOk
          || (w.tmpCreateOk && w.getPipFetchOk && w.getPipRunOk))
        && (w.pipInstallModuleOk || w.pipInstallExeOk)) = true)
    ∧ Event.importAttempt ∉ (installPy7zr w).2 := by
  obtain ⟨a, b, c, d, e0, f, g⟩ := w
  cases a <;> cases b <;> cases c <;> cases d <;> cases e0 <;> cases f <;> cases g <;> decide

/-! ## Claim C5: empty selection -/

/-- C5 counterexample: with no matching file under the source root,
`py7zrMethod` does not return `False` when its import/install preamble
raises — the `ImportError` of the re-import escapes instead of a return. -/
theorem empty_selection_tier2_can_raise :
    collectMatchingFiles "/h" FS.nil [".txt"] = [] ∧
      (py7zrMethod lwStale FS.nil [".txt"] "/h" "/d" "u").1 ≠ Except.ok false := by
  decide

/-- C5 (amended): when no file matches, `cliMethod` returns `False` without
invoking the 7z tool; `py7zrMethod` never opens the archive writer, and
returns `False` unless its import/install preamble raises (exactly when the
library is initially unimportable, the installer reports success, and the
re-import still fails, in which case `ImportError` escapes instead of a
`False` return).  Neither tier creates an archive. -/
theorem empty_selection_no_archive (tree : FS) (exts : List String)
    (source destination username : String)
    (h : collectMatchingFiles source tree exts = []) :
    (∀ sz, (cliMethod sz tree exts source destination username).1 = Except.ok false
      ∧ ∀ args, Event.invoked7z args ∉ (cliMethod sz tree exts source destination username).2)
    ∧ (∀ w : LibWorld,
        (∀ p, Event.writerOpened p ∉ (py7zrMethod w tree exts source destination username).2)
        ∧ ((py7zrMethod w tree exts source destination username).1 = Except.ok false
            ∨ ((py7zrMethod w tree exts source destination username).1
                  = Except.error PyFault.importError
              ∧ w.importableInitially = false ∧ (installPy7zr w.install).1 = true
              ∧ w.importableAfterInstall = false))) := by
  have hemp : (collectMatchingFiles source tree exts).isEmpty := by
    rw [h]; rfl
  constructor
  · intro sz
    constructor
    · rw [cliMethod_fst, if_pos hemp]
    · intro args hmem
      simp [cliMethod, hemp] at hmem
  · intro w
    constructor
    · intro p hmem
      rw [py7zrMethod_snd] at hmem
      by_cases h1 : w.importableInitially = true
      · rw [if_pos h1, py7zrArchive_snd, if_pos hemp] at hmem
        simp at hmem
      · rw [if_neg h1] at hmem
        cases h2 : (installPy7zr w.install).1
        · rw [h2] at hmem
          simp at hmem
          rcases installPy7zr_events w.install _ hmem with
            hh | hh | hh | hh | hh | hh | hh | hh <;> simp at hh
        · rw [h2] at hmem
          by_cases h3 : w.importableAfterInstall = true
          · rw [h3] at hmem
            simp only [Bool.not_true, Bool.false_eq_true, if_false,
              py7zrArchive_snd, if_pos hemp] at hmem
            simp at hmem
            rcases installPy7zr_events w.install _ hmem with
              hh | hh | hh | hh | hh | hh | hh | hh <;> simp at hh
          · have h3f : w.importableAfterInstall = false := by simpa using h3
            rw [h3f] at hmem
            simp at hmem
            rcases installPy7zr_events w.install _ hmem with
              hh | hh | hh | hh | hh | hh | hh | hh <;> simp at hh
    · rw [py7zrMethod_fst]
      by_cases h1 : w.importableInitially = true
      · left
        rw [if_pos h1, if_pos hemp]
      · cases h2 : (installPy7zr w.install).1
        · left
          simp [h1, h2]
        · by_cases h3 : w.importableAfterInstall = true
          · left
            simp [h1, h2, h3, hemp]
          · right
            simp only [Bool.not_eq_true] at h1 h3
            refine ⟨?_, h1, rfl, h3⟩
            simp [h1, h3]

/-- Witness for C5 (amended) at a concrete empty selection. -/
theorem empty_selection_no_archive_witness :
    (cliMethod RunOutcome.success FS.nil [".txt"] "/h" "/d" "u").1 = Except.ok false :=
  ((empty_selection_no_archive FS.nil [".txt"] "/h" "/d" "u" (by decide)).1
    RunOutcome.success).1

/-! ## Claim C8: the get-pip temporary file -/

/-- C8: after any run of `installPy7zr`, the get-pip temporary file is
gone — the final state never has it, and whenever it was created the
removal also happened. -/
theorem getPip_tmp_removed (w : InstallWorld) :
    tmpFileLeft (installPy7zr w).2 = false ∧
      (Event.tmpCreated ∈ (installPy7zr w).2 → Event.tmpRemoved ∈ (installPy7zr w).2) := by
  obtain ⟨a, b, c, d, e0, f, g⟩ := w
  cases a <;> cases b <;> cases c <;> cases d <;> cases e0 <;> cases f <;> cases g <;> decide

/-- C8 witness world: pip absent, ensurepip fails, the temporary file is
created and the downloaded script's run fails. -/
def iwGetPip : InstallWorld := ⟨false, false, false, false, true, true, false⟩

/-- Witness for C8: the creation hypothesis holds in `iwGetPip` and the
removal indeed follows. -/
theorem getPip_tmp_removed_witness :
    Event.tmpRemoved ∈ (installPy7zr iwGetPip).2 :=
  (getPip_tmp_removed iwGetPip).2 (by decide)

/-! ## Claim C7: tier-level failures are Booleans -/

/-- C7: every taxonomy failure — tool absent, tool nonzero exit, installer
failure, archive-write fault, empty selection — yields a Boolean return
from its tier; a fault escapes a tier only outside that taxonomy: an
unexpected fault of the 7z run, or the uncaught re-import failure after a
reported-successful install. -/
theorem tier_failures_are_boolean :
    (∀ sz tree exts s d u f, (cliMethod sz tree exts s d u).1 = Except.error f →
      sz = RunOutcome.otherFault)
    ∧ (∀ (w : LibWorld) tree exts s d u f,
        (py7zrMethod w tree exts s d u).1 = Except.error f →
        f = PyFault.importError ∧ w.importableInitially = false
          ∧ (installPy7zr w.install).1 = true ∧ w.importableAfterInstall = false)
    ∧ (∀ tree exts s d u,
        (cliMethod RunOutcome.fileNotFound tree exts s d u).1 = Except.ok false
        ∧ (cliMethod RunOutcome.nonzeroExit tree exts s d u).1 = Except.ok false)
    ∧ (∀ (w : LibWorld) tree exts s d u, w.importableInitially = false →
        (installPy7zr w.install).1 = false →
        (py7zrMethod w tree exts s d u).1 = Except.ok false)
    ∧ (∀ (w : LibWorld) tree exts s d u, w.importableInitially = true →
        w.writeOk = false →
        (py7zrMethod w tree exts s d u).1 = Except.ok false)
    ∧ (∀ sz tree exts s d u, collectMatchingFiles s tree exts = [] →
        (cliMethod sz tree exts s d u).1 = Except.ok false) := by
  refine ⟨?_, ?_, ?_, ?_, ?_, ?_⟩
  · intro sz tree exts s d u f hf
    rw [cliMethod_fst] at hf
    by_cases hemp : (collectMatchingFiles s tree exts).isEmpty <;>
      cases sz <;> simp_all
  · intro w tree exts s d u f hf
    rw [py7zrMethod_fst] at hf
    by_cases h1 : w.importableInitially = true
    · by_cases hemp : (collectMatchingFiles s tree exts).isEmpty <;>
        by_cases hw : w.writeOk = true <;> simp [h1, hemp, hw] at hf
    · by_cases h2 : (installPy7zr w.install).1 = true
      · by_cases h3 : w.importableAfterInstall = true
        · by_cases hemp : (collectMatchingFiles s tree exts).isEmpty <;>
            by_cases hw : w.writeOk = true <;> simp [h1, h2, h3, hemp, hw] at hf
        · have h1f : w.importableInitially = false := by simpa using h1
          have h3f : w.importableAfterInstall = false := by simpa using h3
          simp [h1, h2, h3f] at hf
          exact ⟨hf.symm, h1f, h2, h3f⟩
      · have h2f : (installPy7zr w.install).1 = false := by simpa using h2
        simp [h1, h2f] at hf
  · intro tree exts s d u
    constructor <;> rw [cliMethod_fst] <;>
      by_cases hemp : (collectMatchingFiles s tree exts).isEmpty <;> simp [hemp]
  · intro w tree exts s d u h1 h2
    rw [py7zrMethod_fst, if_neg (by simp [h1]), h2]
    rfl
  · intro w tree exts s d u h1 h2
    rw [py7zrMethod_fst, if_pos h1]
    by_cases hemp : (collectMatchingFiles s tree exts).isEmpty <;> simp [hemp, h2]
  · intro sz tree exts s d u h
    rw [cliMethod_fst, if_pos (by rw [h]; rfl)]

/-- The all-failing install world, and a library world built on it. -/
def iwAllFail : InstallWorld := ⟨false, false, false, false, false, false, false⟩

/-- A library world whose installer fails. -/
def lwFail : LibWorld := ⟨iwAllFail, false, false, true⟩

/-- Witness for C7: an installer failure is returned as `False`. -/
theorem tier_failures_are_boolean_witness :
    (py7zrMethod lwFail FS.nil [".txt"] "/h" "/d" "u").1 = Except.ok false :=
  tier_failures_are_boolean.2.2.2.1 lwFail FS.nil [".txt"] "/h" "/d" "u" rfl (by decide)

/-! ## Claim C6: tier ordering in the orchestrator -/

theorem main_on_tier1_success {w : MainWorld} {drv : String}
    (hdrv : findDrive w.drive w.username = some drv)
    (hcli : (cliMethod w.sevenZipRun w.tree w.exts w.home drv w.username).1
      = Except.ok true) :
    (main w).1 = Except.ok MainOutcome.tier1Success ∧
      (main w).2 = Event.tier1Called
        :: (cliMethod w.sevenZipRun w.tree w.exts w.home drv w.username).2 := by
  constructor <;> simp only [main, hdrv, hcli]

/-- C6: whenever tier 1 reports success, `main` stops there — tier 2 is
never invoked and the library-loading path (import attempt, installer,
archive writer) is untouched — and neither tier is ever entered more than
once in any run. -/
theorem tier1_success_skips_tier2 (w : MainWorld) :
    (∀ drv, findDrive w.drive w.username = some drv →
      (cliMethod w.sevenZipRun w.tree w.exts w.home drv w.username).1 = Except.ok true →
      (main w).1 = Except.ok MainOutcome.tier1Success
        ∧ Event.tier2Called ∉ (main w).2
        ∧ Event.importAttempt ∉ (main w).2
        ∧ Event.installerCalled ∉ (main w).2
        ∧ (∀ p, Event.writerOpened p ∉ (main w).2))
    ∧ (main w).2.count Event.tier1Called ≤ 1
    ∧ (main w).2.count Event.tier2Called ≤ 1 := by
  refine ⟨?_, ?_⟩
  · intro drv hdrv hcli
    obtain ⟨hfst, hsnd⟩ := main_on_tier1_success hdrv hcli
    rw [hfst, hsnd]
    refine ⟨rfl, ?_, ?_, ?_, ?_⟩
    · intro hmem
      rcases List.mem_cons.mp hmem with h | h
      · simp at h
      · obtain ⟨args, he⟩ := cliMethod_events _ _ _ _ _ _ _ h
        simp at he
    · intro hmem
      rcases List.mem_cons.mp hmem with h | h
      · simp at h
      · obtain ⟨args, he⟩ := cliMethod_events _ _ _ _ _ _ _ h
        simp at he
    · intro hmem
      rcases List.mem_cons.mp hmem with h | h
      · simp at h
      · obtain ⟨args, he⟩ := cliMethod_events _ _ _ _ _ _ _ h
        simp at he
    · intro p hmem
      rcases List.mem_cons.mp hmem with h | h
      · simp at h
      · obtain ⟨args, he⟩ := cliMethod_events _ _ _ _ _ _ _ h
        simp at he
  · cases hdrv : findDrive w.drive w.username with
    | none =>
      simp only [main, hdrv]
      constructor <;> simp
    | some drv =>
      have hcli0 : ∀ ev ∈ (cliMethod w.sevenZipRun w.tree w.exts w.home drv w.username).2,
          ev ≠ Event.tier1Called ∧ ev ≠ Event.tier2Called := by
        intro ev hmem
        obtain ⟨args, he⟩ := cliMethod_events _ _ _ _ _ _ _ hmem
        subst he
        exact ⟨by simp, by simp⟩
      have hpy0 : ∀ ev ∈ (py7zrMethod w.lib w.tree w.exts w.home drv w.username).2,
          ev ≠ Event.tier1Called ∧ ev ≠ Event.tier2Called := by
        intro ev hmem
        rcases py7zrMethod_events _ _ _ _ _ _ _ hmem with h | h | ⟨p, h⟩ | h
        · subst h; exact ⟨by simp, by simp⟩
        · subst h; exact ⟨by simp, by simp⟩
        · subst h; exact ⟨by simp, by simp⟩
        · rcases installPy7zr_events w.lib.install _ h with
            h2 | h2 | h2 | h2 | h2 | h2 | h2 | h2 <;>
          · subst h2
            exact ⟨by simp, by simp⟩
      have hc1 : (cliMethod w.sevenZipRun w.tree w.exts w.home drv
          w.username).2.count Event.tier1Called = 0 :=
        List.count_eq_zero.mpr (fun hmem => (hcli0 _ hmem).1 rfl)
      have hc2 : (cliMethod w.sevenZipRun w.tree w.exts w.home drv
          w.username).2.count Event.tier2Called = 0 :=
        List.count_eq_zero.mpr (fun hmem => (hcli0 _ hmem).2 rfl)
      have hp1 : (py7zrMethod w.lib w.tree w.exts w.home drv
          w.username).2.count Event.tier1Called = 0 :=
        List.count_eq_zero.mpr (fun hmem => (hpy0 _ hmem).1 rfl)
      have hp2 : (py7zrMethod w.lib w.tree w.exts w.home drv
          w.username).2.count Event.tier2Called = 0 :=
        List.count_eq_zero.mpr (fun hmem => (hpy0 _ hmem).2 rfl)
      cases hc : (cliMethod w.sevenZipRun w.tree w.exts w.home drv w.username).1 with
      | error f =>
        simp only [main, hdrv, hc]
        constructor <;> simp [List.count_cons, hc1, hc2]
      | ok b =>
        cases b
        · cases hp : (py7zrMethod w.lib w.tree w.exts w.home drv w.username).1 with
          | error f =>
            simp only [main, hdrv, hc, hp]
            constructor <;>
              simp [List.count_cons, List.count_append, hc1, hc2, hp1, hp2]
          | ok b2 =>
            cases b2 <;>
            · simp only [main, hdrv, hc, hp]
              constructor <;>
                simp [List.count_cons, List.count_append, hc1, hc2, hp1, hp2]
        · simp only [main, hdrv, hc]
          constructor <;> simp [List.count_cons, hc1, hc2]

/-- The drive world of the C6 witness: an enumerated-drive-letter system
with only drive A present and classified removable. -/
def dwWin : DriveWorld :=
  ⟨OSKind.windows, 1, fun _ => 2, fun _ => false, fun _ => [], fun _ => false⟩

/-- The C6 witness world: one matching file under the home tree and a 7z
run that succeeds. -/
def mwOk : MainWorld :=
  ⟨dwWin, RunOutcome.success, lwFail, "u", "/h", FS.file "a.txt" FS.nil, [".txt"]⟩

/-- Witness for C6: in the witness world tier 1 succeeds and tier 2 is
never called. -/
theorem tier1_success_skips_tier2_witness :
    Event.tier2Called ∉ (main mwOk).2 :=
  (((tier1_success_skips_tier2 mwOk).1 "A:\\" (by decide) (by decide)).2).1

/-! ## Claim C9: the volume locator returns the first removable candidate -/

theorem head?_filter {α : Type} (p : α → Bool) (l : List α) :
    (l.filter p).head? = l.find? p := by
  induction l with
  | nil => rfl
  | cons a t ih =>
    cases h : p a
    · rw [List.filter_cons_of_neg (by simp [h]), List.find?_cons_of_neg _ (by simp [h]), ih]
    · rw [List.filter_cons_of_pos h, List.find?_cons_of_pos _ h]
      rfl

theorem if_isEmpty_head? {α : Type} (l : List α) :
    (if l.isEmpty then none else l.head?) = l.head? := by
  cases l <;> rfl

theorem filterMap_guard_eq (p : String → Bool) (f : String → String) (l : List String) :
    l.filterMap (fun e => if p (f e) then some (f e) else none) = (l.map f).filter p := by
  induction l with
  | nil => rfl
  | cons e es ih =>
    rw [List.filterMap_cons, List.map_cons, List.filter_cons]
    by_cases hp : p (f e) = true
    · simp [hp, ih]
    · simp [hp, ih]

theorem posixScan_eq_filter (w : DriveWorld) (username : String) :
    posixScan w username
      = ((posixMountPoints username).flatMap fun mp =>
          if w.pathExists mp then (w.listdir mp).map (pyJoin mp) else []).filter
            w.isMount := by
  unfold posixScan
  generalize posixMountPoints username = mps
  induction mps with
  | nil => rfl
  | cons mp rest ih =>
    rw [List.flatMap_cons, List.flatMap_cons, List.filter_append, ih]
    congr 1
    by_cases hex : w.pathExists mp
    · rw [if_pos hex, if_pos hex]
      exact filterMap_guard_eq w.isMount (pyJoin mp) (w.listdir mp)
    · rw [if_neg hex, if_neg hex]
      rfl

theorem windowsScan_head? (dt : String → Nat) :
    ∀ (ls : List Char) (bm : Nat),
      (windowsScan dt bm ls).head?
        = ((List.range ls.length).find? fun i =>
            bm.testBit i && decide (dt (driveStr (ls.getD i 'A')) = 2)).map
            fun i => driveStr (ls.getD i 'A') := by
  intro ls
  induction ls with
  | nil => intro bm; rfl
  | cons c rest ih =>
    intro bm
    simp only [windowsScan]
    rw [show (c :: rest).length = rest.length + 1 from rfl, List.range_succ_eq_map]
    by_cases hcond : bm % 2 = 1 ∧ dt (driveStr c) = 2
    · rw [if_pos hcond, List.find?_cons_of_pos _ (by
        simp only [List.getD_cons_zero, Nat.testBit_zero, ← Bool.decide_and]
        exact decide_eq_true hcond)]
      rfl
    · rw [if_neg hcond, List.nil_append, List.find?_cons_of_neg _ (by
        simp only [List.getD_cons_zero, Nat.testBit_zero, ← Bool.decide_and]
        simpa using hcond)]
      have hpq : ((fun i =>
            bm.testBit i && decide (dt (driveStr ((c :: rest).getD i 'A')) = 2)) ∘ Nat.succ)
          = fun i => (bm / 2).testBit i && decide (dt (driveStr (rest.getD i 'A')) = 2) := by
        funext i
        simp [Function.comp, Nat.testBit_add_one, List.getD_cons_succ]
      have hfg : ((fun i => driveStr ((c :: rest).getD i 'A')) ∘ Nat.succ)
          = fun i => driveStr (rest.getD i 'A') := by
        funext i
        simp [Function.comp, List.getD_cons_succ]
      rw [ih (bm / 2), List.find?_map, Option.map_map, hpq, hfg]

/-- C9: `findDrive` returns exactly the first candidate classified as
removable in the fixed enumeration order of its platform, or `None` when no
candidate is retained; it is a pure function of the scanned machine state,
so nothing is carried over between calls. -/
theorem findDrive_first_removable (w : DriveWorld) (username : String) :
    findDrive w username = specFirstRemovable w username := by
  cases hos : w.os with
  | windows =>
    simp only [findDrive, specFirstRemovable, hos]
    rw [if_isEmpty_head?]
    have h := windowsScan_head? w.driveTypeW windowsLetters w.bitmask
    rw [show windowsLetters.length = 26 from rfl] at h
    exact h
  | posix =>
    simp only [findDrive, specFirstRemovable, hos]
    rw [if_isEmpty_head?, posixScan_eq_filter, head?_filter]

end Bohren

